import Mathlib

/-!
Verification of the portfolio valuation/normalization pipeline of
`src/stock.py` (and its near-identical copy `src/stock app/stock.py`).

The pipeline is shallowly embedded: prices and quantities become `ℚ`,
the market-data collaborator (`yfinance`) becomes explicit environment
functions, Python `dict.get` defaults become `Option.getD`, and the
Streamlit warnings become a list of structured notices.  Machine floats
are modelled by exact rationals; all claims under study are about the
arithmetic structure of the pipeline, not float rounding.
-/

namespace PortfolioTracker

/-- Result of the market-data collaborator for an FX-pair history request
(`yf.Ticker(fx_ticker).history(period="1d")` in `get_fx_rate_to_gbp`):
the request may raise (`err`), return an empty frame (`empty`), or return
a frame whose latest close is `r` (`close r`). -/
inductive FxResult where
  | err : FxResult
  | empty : FxResult
  | close (r : ℚ) : FxResult
deriving DecidableEq

/-- Embedding of `get_fx_rate_to_gbp` (src/stock.py lines 15-25),
instrumented with the list of FX symbols requested from the collaborator:
returns 1.0 with no request when the currency is already GBP, otherwise
requests `f"{from_currency}GBP=X"` and falls back to 1.0 when the frame
is empty or the request raises. -/
def get_fx_rate_to_gbp (fxenv : String → FxResult) (from_currency : String) :
    ℚ × List String :=
  if from_currency = "GBP" then (1, [])
  else
    let fx_ticker := from_currency ++ "GBP=X"
    match fxenv fx_ticker with
    | .err => (1, [fx_ticker])
    | .empty => (1, [fx_ticker])
    | .close r => (r, [fx_ticker])

/-- Result of fetching `yf.Ticker(ticker).info` for a stock: the fetch may
raise (`err`), or produce an info dict whose relevant keys are modelled as
options (`none` = key absent, or present with value `None`). -/
inductive FetchInfo where
  | err : FetchInfo
  | ok (regularMarketPrice : Option ℚ) (currency : Option String)
      (exchange : Option String) (trailingPE : Option ℚ)
      (recommendationKey : Option String) : FetchInfo
deriving DecidableEq

/-- Embedding of the `rating_map` lookup with default `"N/A"`
(src/stock.py lines 158-167). -/
def rating_map (k : Option String) : String :=
  match k with
  | none => "N/A"
  | some "buy" => "Buy"
  | some "hold" => "Hold"
  | some "sell" => "Sell"
  | some "strong_buy" => "Strong Buy"
  | some "strong_sell" => "Strong Sell"
  | some _ => "N/A"

/-- One row of the portfolio table appended to `portfolio_data`
(src/stock.py lines 169-181).  `peRatio = none` renders as "N/A". -/
structure HoldingResult where
  ticker : String
  shares : ℚ
  buyPriceGBP : ℚ
  currentPriceNative : ℚ
  currentPriceGBP : ℚ
  currency : String
  valueGBP : ℚ
  costGBP : ℚ
  returnPct : ℚ
  peRatio : Option ℚ
  analystRating : String
deriving DecidableEq

/-- Outcome of the body of the per-holding loop: the fetch raised
(`fetchFailed`, caught at lines 186-187), the quote had no
`regularMarketPrice` (`missingQuote`, the skip at lines 140-142), or a
full table row was produced. -/
inductive HoldingOutcome where
  | fetchFailed (ticker : String) : HoldingOutcome
  | missingQuote (ticker : String) : HoldingOutcome
  | row (r : HoldingResult) : HoldingOutcome
deriving DecidableEq

/-- Embedding of the body of the per-holding valuation loop
(src/stock.py lines 131-187), given the already-fetched `info`. -/
def processQuote (fxenv : String → FxResult) (info : FetchInfo)
    (ticker : String) (qty buy_price_gbp : ℚ) : HoldingOutcome :=
  match info with
  | .err => .fetchFailed ticker
  | .ok price cur exch pe rec =>
    match price with
    | none => .missingQuote ticker
    | some current_price_raw =>
      let currency := cur.getD "GBP"
      let exchange := exch.getD ""
      let current_price_native :=
        if exchange = "LSE" then current_price_raw / 100 else current_price_raw
      let fx_rate := (get_fx_rate_to_gbp fxenv currency).1
      let current_price_gbp := current_price_native * fx_rate
      let value_gbp := current_price_gbp * qty
      let cost_gbp := buy_price_gbp * qty
      let returns :=
        if buy_price_gbp > 0 then
          (current_price_gbp - buy_price_gbp) / buy_price_gbp * 100
        else 0
      .row ⟨ticker, qty, buy_price_gbp, current_price_native,
            current_price_gbp, currency, value_gbp, cost_gbp, returns,
            pe, rating_map rec⟩

/-- One input position: a `(ticker, qty, buy_price_gbp)` triple from
`zip(tickers, shares, buy_prices_gbp)`. -/
structure Holding where
  ticker : String
  qty : ℚ
  buyPrice : ℚ
deriving DecidableEq

/-- Structured notice surfaced by `st.warning` in the valuation loop:
"No current price found" (the missing-quote skip) or
"Failed to fetch data" (a caught exception). -/
inductive Notice where
  | quoteUnavailable (ticker : String) : Notice
  | fetchError (ticker : String) : Notice
deriving DecidableEq

/-- Output of the valuation loop: the table rows, the two running totals
and the warnings, in input order. -/
structure Analysis where
  rows : List HoldingResult
  total_value_gbp : ℚ
  total_cost_gbp : ℚ
  notices : List Notice
deriving DecidableEq

/-- Embedding of the portfolio analysis loop (src/stock.py lines
127-187): rows and notices are produced in input order; a holding whose
quote resolves adds its value and cost to the totals in the same branch
that appends its row. -/
def analyze (qenv : String → FetchInfo) (fxenv : String → FxResult) :
    List Holding → Analysis
  | [] => ⟨[], 0, 0, []⟩
  | h :: rest =>
    let r := analyze qenv fxenv rest
    match processQuote fxenv (qenv h.ticker) h.ticker h.qty h.buyPrice with
    | .fetchFailed t =>
      ⟨r.rows, r.total_value_gbp, r.total_cost_gbp, .fetchError t :: r.notices⟩
    | .missingQuote t =>
      ⟨r.rows, r.total_value_gbp, r.total_cost_gbp,
       .quoteUnavailable t :: r.notices⟩
    | .row row =>
      ⟨row :: r.rows, row.valueGBP + r.total_value_gbp,
       row.costGBP + r.total_cost_gbp, r.notices⟩

/-- Embedding of the aggregate-return line (src/stock.py line 204):
`(total_value_gbp - total_cost_gbp) / total_cost_gbp * 100 if
total_cost_gbp > 0 else 0`. -/
def total_return (total_value_gbp total_cost_gbp : ℚ) : ℚ :=
  if total_cost_gbp > 0 then
    (total_value_gbp - total_cost_gbp) / total_cost_gbp * 100
  else 0

/-- Follows the spec's words, for comparison with `total_return`:
"totalReturnPct = (totalValue − totalCost) / totalCost × 100 if
totalCost > 0 else undefined" — the undefined case is an absent value,
not a number. -/
def totalReturnPct_spec (totalValue totalCost : ℚ) : Option ℚ :=
  if totalCost > 0 then some ((totalValue - totalCost) / totalCost * 100)
  else none

/-! ### Input parsing and batch validation (src/stock.py lines 107-131) -/

/-- Splitting a character list on commas, as Python `s.split(",")` does:
the empty string yields one empty field. -/
def splitCommaAux : List Char → List Char → List String
  | [], acc => [String.mk acc.reverse]
  | c :: cs, acc =>
    if c = ',' then String.mk acc.reverse :: splitCommaAux cs []
    else splitCommaAux cs (c :: acc)

/-- Embedding of Python `s.split(",")`. -/
def splitComma (s : String) : List String :=
  splitCommaAux s.data []

/-- Embedding of Python `s.strip()`: remove leading and trailing
whitespace. -/
def pyStrip (s : String) : String :=
  String.mk
    (((s.data.dropWhile Char.isWhitespace).reverse.dropWhile
        Char.isWhitespace).reverse)

/-- Embedding of Python `s.upper()` on ASCII ticker text. -/
def pyUpper (s : String) : String :=
  String.mk (s.data.map Char.toUpper)

/-- Numeric value of a single decimal digit character. -/
def digitVal (c : Char) : Nat :=
  match c with
  | '0' => 0
  | '1' => 1
  | '2' => 2
  | '3' => 3
  | '4' => 4
  | '5' => 5
  | '6' => 6
  | '7' => 7
  | '8' => 8
  | '9' => 9
  | _ => 0

/-- Numeric value of a digit string. -/
def digitsVal (l : List Char) : ℚ :=
  ((l.foldl (fun a c => a * 10 + digitVal c) 0 : Nat) : ℚ)

/-- Model of the Python builtin `float()` on plain signed decimal
literals (optional sign, digits, optional fractional part): the fragment
of `float()`'s grammar exercised by the concrete inputs in this
development.  The batch pipeline is parameterized over the parse
function, so theorems quantifying over it cover the full builtin. -/
def pyFloatLit (s : String) : Option ℚ :=
  let signAndRest : ℚ × List Char :=
    match s.data with
    | '-' :: rest => (-1, rest)
    | '+' :: rest => (1, rest)
    | cs => (1, cs)
  let sign := signAndRest.1
  let intPart := signAndRest.2.takeWhile Char.isDigit
  let rest := signAndRest.2.dropWhile Char.isDigit
  match rest with
  | [] => if intPart.isEmpty then none else some (sign * digitsVal intPart)
  | '.' :: frac =>
    if frac.all Char.isDigit ∧ ¬(intPart.isEmpty ∧ frac.isEmpty) then
      some (sign * (digitsVal intPart + digitsVal frac / (10 ^ frac.length)))
    else none
  | _ :: _ => none

/-- Parsing each field of a split input with `float(x.strip())`: the
first failing field makes the whole comprehension raise. -/
def parseFields (pf : String → Option ℚ) : List String → Option (List ℚ)
  | [] => some []
  | x :: xs =>
    match pf (pyStrip x) with
    | none => none
    | some v => (parseFields pf xs).map (fun vs => v :: vs)

/-- Embedding of `[float(s.strip()) for s in input.split(",")]` wrapped in
`try/except` (src/stock.py lines 111-121): `none` when any field fails to
parse.  `pf` is the float-parse collaborator (the Python builtin). -/
def parseList (pf : String → Option ℚ) (s : String) : Option (List ℚ) :=
  parseFields pf (splitComma s)

/-- Embedding of `[t.strip().upper() for t in tickers_input.split(",")]`
(src/stock.py line 109). -/
def tickersOf (tickers_input : String) : List String :=
  (splitComma tickers_input).map (fun t => pyUpper (pyStrip t))

/-- How one run of the analysis section ends: input box empty (falsy), a
batch-level validation stop (`st.stop()` at lines 115, 121, 125), or the
valuation loop ran. -/
inductive BatchResult where
  | noInput : BatchResult
  | sharesParseError : BatchResult
  | buyPricesParseError : BatchResult
  | lengthMismatch : BatchResult
  | analyzed (a : Analysis) : BatchResult
deriving DecidableEq

/-- Result of a batch run together with the list of symbols for which a
quote fetch was issued (`yf.Ticker(ticker)` / `.info` in the loop). -/
structure BatchOutcome where
  fetches : List String
  result : BatchResult
deriving DecidableEq

/-- Embedding of the whole analysis section (src/stock.py lines
107-187): ticker normalization, shares parse, buy-price parse, length
check — each failure stopping the batch before the loop — then the
valuation loop, which fetches each zipped ticker exactly once. -/
def runBatch (pf : String → Option ℚ) (qenv : String → FetchInfo)
    (fxenv : String → FxResult)
    (tickers_input shares_input buy_prices_input : String) : BatchOutcome :=
  if tickers_input = "" then ⟨[], .noInput⟩
  else
    let tickers := tickersOf tickers_input
    match parseList pf shares_input with
    | none => ⟨[], .sharesParseError⟩
    | some shares =>
      match parseList pf buy_prices_input with
      | none => ⟨[], .buyPricesParseError⟩
      | some buy_prices_gbp =>
        if shares.length ≠ tickers.length ∨
            buy_prices_gbp.length ≠ tickers.length then
          ⟨[], .lengthMismatch⟩
        else
          let holdings := (tickers.zip (shares.zip buy_prices_gbp)).map
            (fun p => Holding.mk p.1 p.2.1 p.2.2)
          ⟨holdings.map Holding.ticker, .analyzed (analyze qenv fxenv holdings)⟩

/-! ### Historical combined-chart path (src/stock.py lines 211-239)

A close series is a list of `(date, close)` pairs with strictly
ascending dates (the collaborator contract: "ordered sequence of
`(date, closePrice)`, ascending by date, possibly with gaps"); dates are
modelled as naturals. -/

/-- Embedding of the LSE pence correction applied to a whole close
series (`hist['Close'] = hist['Close'] / 100.0`, line 224). -/
def lseAdjust (exchange : String) (hist : List (Nat × ℚ)) : List (Nat × ℚ) :=
  if exchange = "LSE" then hist.map (fun p => (p.1, p.2 / 100)) else hist

/-- Embedding of the per-ticker column-building loop (src/stock.py lines
212-234): for each `(ticker, qty)`, fetch the 1-month close history,
skip the ticker when the frame is empty, otherwise read `info` (an
uncaught fetch exception here crashes the section, hence `none`), apply
the LSE pence correction to every point, multiply every point by the FX
rate and by `qty`.  Returns the list of single-ticker columns that the
outer joins accumulate. -/
def historyColumns (histEnv : String → List (Nat × ℚ))
    (qenv : String → FetchInfo) (fxenv : String → FxResult) :
    List (String × ℚ) → Option (List (List (Nat × ℚ)))
  | [] => some []
  | (ticker, qty) :: rest =>
    let hist := histEnv ticker
    if hist.isEmpty then historyColumns histEnv qenv fxenv rest
    else
      match qenv ticker with
      | .err => none
      | .ok _ cur exch _ _ =>
        let currency := cur.getD "GBP"
        let exchange := exch.getD ""
        let hist1 := lseAdjust exchange hist
        let fx_rate := (get_fx_rate_to_gbp fxenv currency).1
        let closeGBP := hist1.map (fun p => (p.1, p.2 * fx_rate))
        let col := closeGBP.map (fun p => (p.1, p.2 * qty))
        (historyColumns histEnv qenv fxenv rest).map (fun cols => col :: cols)

/-- Insert a date into a sorted duplicate-free date list, keeping it
sorted and duplicate-free: the index produced by repeated
`join(..., how="outer")` on date indexes. -/
def insertSorted (d : Nat) : List Nat → List Nat
  | [] => [d]
  | x :: xs =>
    if d < x then d :: x :: xs
    else if d = x then x :: xs
    else x :: insertSorted d xs

/-- The union of the dates of all columns, sorted ascending: the index of
the outer-joined frame. -/
def allDates (cols : List (List (Nat × ℚ))) : List Nat :=
  (cols.flatMap (fun c => c.map Prod.fst)).foldr insertSorted []

/-- Exact-date lookup in one column: the column's cell at an index date
of the joined frame, `none` being NaN. -/
def lookupDate (d : Nat) : List (Nat × ℚ) → Option ℚ
  | [] => none
  | p :: rest => if p.1 = d then some p.2 else lookupDate d rest

/-- Embedding of `fillna(method='ffill')` on one column of the joined
frame: walk the index dates in order, carrying the last valid
observation forward into NaN cells (leading NaNs stay NaN). -/
def ffillCol (col : List (Nat × ℚ)) : List Nat → Option ℚ → List (Option ℚ)
  | [], _ => []
  | d :: ds, prev =>
    let v := match lookupDate d col with
      | some w => some w
      | none => prev
    v :: ffillCol col ds v

/-- Embedding of `combined_df.sum(axis=1)` after the forward fill
(src/stock.py lines 237-238): pointwise sum of the forward-filled
columns over the joined date index, a NaN cell contributing 0 (pandas
skips NaN in `sum`). -/
def totalSeries (cols : List (List (Nat × ℚ))) : List (Nat × ℚ) :=
  let dates := allDates cols
  let filled := cols.map (fun c => (ffillCol c dates none).map (fun o => o.getD 0))
  dates.zip (filled.foldr (fun f acc => List.zipWith (· + ·) f acc)
    (dates.map (fun _ => (0 : ℚ))))

/-- The last close of a column at or before date `d`, for a column with
ascending dates: the value forward fill should reproduce at `d`. -/
def lastLE (col : List (Nat × ℚ)) (d : Nat) : Option ℚ :=
  match col with
  | [] => none
  | p :: rest =>
    if p.1 ≤ d then
      match lastLE rest d with
      | some v => some v
      | none => some p.2
    else none

/-- A close series has strictly ascending dates (the market-data
collaborator contract for `fetchHistory`). -/
def DateSorted (col : List (Nat × ℚ)) : Prop :=
  List.Pairwise (fun p q => p.1 < q.1) col

instance (col : List (Nat × ℚ)) : Decidable (DateSorted col) := by
  unfold DateSorted
  infer_instance

/-- The combined normalization the valuation path applies to a raw
price: minor-unit correction first, then the FX conversion. -/
def priceToGBP (fxenv : String → FxResult) (currency exchange : String)
    (p : ℚ) : ℚ :=
  (if exchange = "LSE" then p / 100 else p) *
    (get_fx_rate_to_gbp fxenv currency).1

/-- The GBP price of a row, when the outcome is a row. -/
def outcomePriceGBP : HoldingOutcome → Option ℚ
  | .row r => some r.currentPriceGBP
  | _ => none

/-- The native price of a row, when the outcome is a row. -/
def outcomePriceNative : HoldingOutcome → Option ℚ
  | .row r => some r.currentPriceNative
  | _ => none

/-! ### Helper lemmas -/

lemma mem_insertSorted {x d : Nat} {l : List Nat} :
    x ∈ insertSorted d l ↔ x = d ∨ x ∈ l := by
  induction l with
  | nil => simp [insertSorted]
  | cons y ys ih =>
    simp only [insertSorted]
    by_cases h1 : d < y
    · simp [h1]
    · by_cases h2 : d = y
      · subst h2
        rw [if_neg h1, if_pos rfl]
        simp only [List.mem_cons]
        tauto
      · simp only [h1, h2, if_false, List.mem_cons, ih]
        tauto

lemma pairwise_insertSorted {d : Nat} {l : List Nat}
    (h : List.Pairwise (· < ·) l) :
    List.Pairwise (· < ·) (insertSorted d l) := by
  induction l with
  | nil => simp [insertSorted]
  | cons y ys ih =>
    rw [List.pairwise_cons] at h
    simp only [insertSorted]
    split
    · rename_i hdy
      rw [List.pairwise_cons]
      refine ⟨?_, List.pairwise_cons.mpr h⟩
      intro a ha
      rcases List.mem_cons.mp ha with rfl | ha
      · exact hdy
      · exact lt_trans hdy (h.1 a ha)
    · split
      · exact List.pairwise_cons.mpr h
      · rename_i hnlt hne
        rw [List.pairwise_cons]
        refine ⟨?_, ih h.2⟩
        intro a ha
        rcases mem_insertSorted.mp ha with rfl | ha
        · exact lt_of_le_of_ne (not_lt.mp hnlt) (fun hyd => hne hyd.symm)
        · exact h.1 a ha

lemma pairwise_foldr_insertSorted (l : List Nat) :
    List.Pairwise (· < ·) (l.foldr insertSorted []) := by
  induction l with
  | nil => simp
  | cons x xs ih => exact pairwise_insertSorted ih

lemma mem_foldr_insertSorted {x : Nat} {l : List Nat} (hx : x ∈ l) :
    x ∈ l.foldr insertSorted [] := by
  induction l with
  | nil => cases hx
  | cons y ys ih =>
    rcases List.mem_cons.mp hx with rfl | hx
    · exact mem_insertSorted.mpr (Or.inl rfl)
    · exact mem_insertSorted.mpr (Or.inr (ih hx))

lemma pairwise_allDates (cols : List (List (Nat × ℚ))) :
    List.Pairwise (· < ·) (allDates cols) :=
  pairwise_foldr_insertSorted _

lemma mem_allDates {cols : List (List (Nat × ℚ))} {c : List (Nat × ℚ)}
    {p : Nat × ℚ} (hc : c ∈ cols) (hp : p ∈ c) : p.1 ∈ allDates cols := by
  apply mem_foldr_insertSorted
  exact List.mem_flatMap.mpr ⟨c, hc, List.mem_map.mpr ⟨p, hp, rfl⟩⟩

lemma lookupDate_eq_none {d : Nat} {l : List (Nat × ℚ)}
    (h : ∀ p ∈ l, p.1 ≠ d) : lookupDate d l = none := by
  induction l with
  | nil => rfl
  | cons q qs ih =>
    simp only [lookupDate]
    rw [if_neg (h q (List.mem_cons_self q qs))]
    exact ih (fun p hp => h p (List.mem_cons_of_mem q hp))

lemma lookupDate_append_left_none {d : Nat} {l1 l2 : List (Nat × ℚ)}
    (h : ∀ p ∈ l1, p.1 ≠ d) :
    lookupDate d (l1 ++ l2) = lookupDate d l2 := by
  induction l1 with
  | nil => rfl
  | cons q qs ih =>
    simp only [List.cons_append, lookupDate]
    rw [if_neg (h q (List.mem_cons_self q qs))]
    exact ih (fun p hp => h p (List.mem_cons_of_mem q hp))

lemma lastLE_before {d : Nat} {l : List (Nat × ℚ)}
    (h : ∀ p ∈ l, d < p.1) : lastLE l d = none := by
  cases l with
  | nil => rfl
  | cons q qs =>
    simp only [lastLE]
    rw [if_neg (not_le.mpr (h q (List.mem_cons_self q qs)))]

lemma lastLE_split {d : Nat} {xs ys : List (Nat × ℚ)}
    (hxs : ∀ p ∈ xs, p.1 ≤ d) (hys : ∀ p ∈ ys, d < p.1) :
    lastLE (xs ++ ys) d = (xs.getLast?).map Prod.snd := by
  induction xs with
  | nil => simp [lastLE_before hys]
  | cons x xs' ih =>
    simp only [List.cons_append, lastLE, List.append_eq]
    rw [if_pos (hxs x (List.mem_cons_self x xs'))]
    rw [ih (fun p hp => hxs p (List.mem_cons_of_mem x hp))]
    cases xs' with
    | nil => simp
    | cons z zs =>
      have hne : (z :: zs) ≠ [] := by simp
      obtain ⟨w, hw⟩ := Option.isSome_iff_exists.mp (List.getLast?_isSome.mpr hne)
      simp [hw]

lemma lastLE_hit {d : Nat} {xs ys : List (Nat × ℚ)} {q : Nat × ℚ}
    (hxs : ∀ p ∈ xs, p.1 ≤ d) (hq : q.1 ≤ d) (hys : ∀ p ∈ ys, d < p.1) :
    lastLE (xs ++ q :: ys) d = some q.2 := by
  have h1 : ∀ p ∈ xs ++ [q], p.1 ≤ d := by
    intro p hp
    rcases List.mem_append.mp hp with hp | hp
    · exact hxs p hp
    · rcases List.mem_singleton.mp hp with rfl
      exact hq
  have := lastLE_split h1 hys
  rwa [List.append_assoc, List.singleton_append, List.getLast?_concat] at this

/-- Forward fill visits the index dates in ascending order carrying the
last observation forward; for a date-sorted column whose unprocessed
part lies inside the remaining index, every produced cell is the
column's most recent close at or before that index date. -/
lemma ffillCol_go (D : List Nat) :
    ∀ c1 c2 : List (Nat × ℚ),
      List.Pairwise (· < ·) D →
      DateSorted (c1 ++ c2) →
      (∀ p ∈ c1, ∀ d ∈ D, p.1 < d) →
      (∀ p ∈ c2, p.1 ∈ D) →
      ffillCol (c1 ++ c2) D ((c1.getLast?).map Prod.snd) =
        D.map (lastLE (c1 ++ c2)) := by
  induction D with
  | nil => intro c1 c2 _ _ _ _; rfl
  | cons d ds ih =>
    intro c1 c2 hD hsorted h1 h2
    rw [List.pairwise_cons] at hD
    obtain ⟨hd, hds⟩ := hD
    obtain ⟨hp1, hp2, hcross⟩ := List.pairwise_append.mp hsorted
    simp only [ffillCol, List.map_cons]
    cases c2 with
    | nil =>
      have hlook : lookupDate d (c1 ++ []) = none :=
        lookupDate_eq_none (fun p hp =>
          Nat.ne_of_lt (h1 p (by simpa using hp) d (List.mem_cons_self d ds)))
      have hlast : lastLE (c1 ++ []) d = (c1.getLast?).map Prod.snd :=
        lastLE_split
          (fun p hp => le_of_lt (h1 p (by simpa using hp) d (List.mem_cons_self d ds)))
          (fun p hp => absurd hp (List.not_mem_nil p))
      rw [hlook, hlast]
      refine congrArg _ ?_
      exact ih c1 [] hds hsorted
        (fun p hp d' hd' => h1 p hp d' (List.mem_cons_of_mem d hd'))
        (fun p hp => absurd hp (List.not_mem_nil p))
    | cons q c2' =>
      have hqmem : q.1 ∈ d :: ds := h2 q (List.mem_cons_self q c2')
      have hqlt : ∀ r ∈ c2', q.1 < r.1 := (List.pairwise_cons.mp hp2).1
      by_cases hqd : q.1 = d
      · have hlook : lookupDate d (c1 ++ q :: c2') = some q.2 := by
          rw [lookupDate_append_left_none (fun p hp =>
            Nat.ne_of_lt (h1 p hp d (List.mem_cons_self d ds)))]
          simp [lookupDate, hqd]
        have hlast : lastLE (c1 ++ q :: c2') d = some q.2 :=
          lastLE_hit
            (fun p hp => le_of_lt (h1 p hp d (List.mem_cons_self d ds)))
            (le_of_eq hqd)
            (fun p hp => by rw [← hqd]; exact hqlt p hp)
        rw [hlook, hlast]
        refine congrArg _ ?_
        have h1' : ∀ p ∈ c1 ++ [q], ∀ d' ∈ ds, p.1 < d' := by
          intro p hp d' hd'
          rcases List.mem_append.mp hp with hp | hp
          · exact h1 p hp d' (List.mem_cons_of_mem d hd')
          · rcases List.mem_singleton.mp hp with rfl
            rw [hqd]
            exact hd d' hd'
        have h2' : ∀ p ∈ c2', p.1 ∈ ds := by
          intro p hp
          have hmem : p.1 ∈ d :: ds := h2 p (List.mem_cons_of_mem q hp)
          rcases List.mem_cons.mp hmem with heq | hmem
          · have hlt : q.1 < p.1 := hqlt p hp
            rw [hqd, heq] at hlt
            exact absurd hlt (lt_irrefl d)
          · exact hmem
        have := ih (c1 ++ [q]) c2' hds
          (by rwa [List.append_assoc, List.singleton_append]) h1' h2'
        rwa [List.append_assoc, List.singleton_append,
          List.getLast?_concat] at this
      · have hdq : d < q.1 := by
          rcases List.mem_cons.mp hqmem with heq | hmem
          · exact absurd heq hqd
          · exact hd q.1 hmem
        have hys : ∀ p ∈ q :: c2', d < p.1 := by
          intro p hp
          rcases List.mem_cons.mp hp with rfl | hp
          · exact hdq
          · exact lt_trans hdq (hqlt p hp)
        have hlook : lookupDate d (c1 ++ q :: c2') = none :=
          lookupDate_eq_none (fun p hp => by
            rcases List.mem_append.mp hp with hp | hp
            · exact Nat.ne_of_lt (h1 p hp d (List.mem_cons_self d ds))
            · exact (Nat.ne_of_lt (hys p hp)).symm)
        have hlast : lastLE (c1 ++ q :: c2') d = (c1.getLast?).map Prod.snd :=
          lastLE_split
            (fun p hp => le_of_lt (h1 p hp d (List.mem_cons_self d ds)))
            hys
        rw [hlook, hlast]
        refine congrArg _ ?_
        exact ih c1 (q :: c2') hds hsorted
          (fun p hp d' hd' => h1 p hp d' (List.mem_cons_of_mem d hd'))
          (fun p hp => by
            have hmem : p.1 ∈ d :: ds := h2 p hp
            rcases List.mem_cons.mp hmem with heq | hmem
            · have hlt : d < p.1 := hys p hp
              rw [heq] at hlt
              exact absurd hlt (lt_irrefl d)
            · exact hmem)

/-- Forward fill on one date-sorted column over a sorted index that
contains all its dates reproduces, at every index date, the column's
most recent close at or before that date. -/
lemma ffillCol_eq_lastLE (col : List (Nat × ℚ)) (D : List Nat)
    (hD : List.Pairwise (· < ·) D) (hcol : DateSorted col)
    (hsub : ∀ p ∈ col, p.1 ∈ D) :
    ffillCol col D none = D.map (lastLE col) := by
  have := ffillCol_go D [] col hD (by simpa using hcol)
    (fun p hp => absurd hp (List.not_mem_nil p)) hsub
  simpa using this

/-- Pointwise sum of per-date column maps: folding column addition over
columns that are maps over the same date index yields the map of the
pointwise sums. -/
lemma foldr_zipWith_sum (dates : List Nat) :
    ∀ cols : List (List (Nat × ℚ)),
      ∀ g : List (Nat × ℚ) → Nat → ℚ,
      (cols.map (fun c => dates.map (g c))).foldr
          (fun f acc => List.zipWith (· + ·) f acc)
          (dates.map (fun _ => (0 : ℚ))) =
        dates.map (fun d => (cols.map (fun c => g c d)).sum) := by
  intro cols
  induction cols with
  | nil => intro g; simp
  | cons c cs ih =>
    intro g
    simp only [List.map_cons, List.foldr_cons, ih g]
    rw [List.zipWith_map, List.zipWith_same]
    simp

/-- The combined chart's total series equals, at every date of the outer
join, the sum over columns of the most recent close at or before that
date: forward fill prevents a column from dropping out of the sum at its
gap dates. -/
lemma totalSeries_eq_lastLE (cols : List (List (Nat × ℚ)))
    (hs : ∀ c ∈ cols, DateSorted c) :
    totalSeries cols =
      (allDates cols).map
        (fun d => (d, (cols.map (fun c => (lastLE c d).getD 0)).sum)) := by
  simp only [totalSeries]
  have hfill : cols.map (fun c => (ffillCol c (allDates cols) none).map
      (fun o => o.getD 0)) =
      cols.map (fun c => (allDates cols).map (fun d => (lastLE c d).getD 0)) := by
    apply List.map_congr_left
    intro c hc
    rw [ffillCol_eq_lastLE c (allDates cols) (pairwise_allDates cols) (hs c hc)
      (fun p hp => mem_allDates hc hp), List.map_map]
    rfl
  rw [hfill, foldr_zipWith_sum (allDates cols) cols
    (fun c d => (lastLE c d).getD 0)]
  have hzip := List.zip_map' id
    (fun d => (cols.map (fun c => (lastLE c d).getD 0)).sum) (allDates cols)
  simpa using hzip

/-- The running totals of the valuation loop are the sums of the value
and cost columns of the rows it produced. -/
lemma analyze_totals (qenv : String → FetchInfo) (fxenv : String → FxResult)
    (hs : List Holding) :
    (analyze qenv fxenv hs).total_value_gbp =
      ((analyze qenv fxenv hs).rows.map HoldingResult.valueGBP).sum ∧
    (analyze qenv fxenv hs).total_cost_gbp =
      ((analyze qenv fxenv hs).rows.map HoldingResult.costGBP).sum := by
  induction hs with
  | nil => simp [analyze]
  | cons h t ih =>
    simp only [analyze]
    cases hq : processQuote fxenv (qenv h.ticker) h.ticker h.qty h.buyPrice <;>
      simp [hq, ih.1, ih.2]

/-- The valuation loop distributes over list append: rows, notices and
totals of a concatenation are the concatenations/sums of the parts. -/
lemma analyze_append (qenv : String → FetchInfo) (fxenv : String → FxResult)
    (l1 l2 : List Holding) :
    analyze qenv fxenv (l1 ++ l2) =
      ⟨(analyze qenv fxenv l1).rows ++ (analyze qenv fxenv l2).rows,
       (analyze qenv fxenv l1).total_value_gbp +
         (analyze qenv fxenv l2).total_value_gbp,
       (analyze qenv fxenv l1).total_cost_gbp +
         (analyze qenv fxenv l2).total_cost_gbp,
       (analyze qenv fxenv l1).notices ++ (analyze qenv fxenv l2).notices⟩ := by
  induction l1 with
  | nil => simp [analyze]
  | cons h t ih =>
    simp only [List.cons_append, analyze]
    cases hq : processQuote fxenv (qenv h.ticker) h.ticker h.qty h.buyPrice <;>
      simp [hq, ih, add_assoc]

/-! ### Claims -/

/-- C1: normalizing a raw price `p` on the LSE venue yields the same
result (the whole table row, hence the same base-currency price) as
normalizing `p / 100` on any non-LSE venue with identical currency and
FX environment: the pence division happens exactly once, before the
currency conversion. -/
theorem lse_minor_unit_applied_once (fxenv : String → FxResult) (p : ℚ)
    (cur : Option String) (ex : String) (pe : Option ℚ) (rk : Option String)
    (t : String) (q bp : ℚ) (hex : ex ≠ "LSE") :
    processQuote fxenv (.ok (some p) cur (some "LSE") pe rk) t q bp =
      processQuote fxenv (.ok (some (p / 100)) cur (some ex) pe rk) t q bp := by
  simp [processQuote, Option.getD, hex]

theorem lse_minor_unit_applied_once_witness :
    processQuote (fun _ => .close 2) (.ok (some 500) (some "USD") (some "LSE") none none)
        "SHEL.L" 3 2 =
      processQuote (fun _ => .close 2) (.ok (some (500 / 100)) (some "USD") (some "NMS") none none)
        "SHEL.L" 3 2 :=
  lse_minor_unit_applied_once (fun _ => .close 2) 500 (some "USD") "NMS" none none
    "SHEL.L" 3 2 (by simp)

/-- C2: for every list of holdings and every assignment of quote
outcomes, `total_value_gbp` is the sum of the values of exactly the rows
produced, and `total_cost_gbp` is the sum of the costs of exactly the
same rows: a holding contributes both its value and its cost to the
aggregates, or neither. -/
theorem totals_over_same_rows (qenv : String → FetchInfo)
    (fxenv : String → FxResult) (hs : List Holding) :
    (analyze qenv fxenv hs).total_value_gbp =
      ((analyze qenv fxenv hs).rows.map HoldingResult.valueGBP).sum ∧
    (analyze qenv fxenv hs).total_cost_gbp =
      ((analyze qenv fxenv hs).rows.map HoldingResult.costGBP).sum :=
  analyze_totals qenv fxenv hs

/-- C3 counterexample: a batch whose only holding has buy price 0
produces `total_cost_gbp = 0`, not positive, yet the code still reports
the numeric aggregate return 0 — where the claim requires an absent,
non-numeric report (`totalReturnPct_spec` yields `none` there). -/
theorem total_return_zero_cost_counterexample :
    (analyze (fun _ => .ok (some 5) none none none none) (fun _ => .close 1)
        [⟨"AAA", 2, 0⟩]).total_cost_gbp = 0 ∧
    total_return
        (analyze (fun _ => .ok (some 5) none none none none) (fun _ => .close 1)
          [⟨"AAA", 2, 0⟩]).total_value_gbp
        (analyze (fun _ => .ok (some 5) none none none none) (fun _ => .close 1)
          [⟨"AAA", 2, 0⟩]).total_cost_gbp = 0 ∧
    totalReturnPct_spec
        (analyze (fun _ => .ok (some 5) none none none none) (fun _ => .close 1)
          [⟨"AAA", 2, 0⟩]).total_value_gbp
        (analyze (fun _ => .ok (some 5) none none none none) (fun _ => .close 1)
          [⟨"AAA", 2, 0⟩]).total_cost_gbp = none := by
  norm_num [analyze, processQuote, get_fx_rate_to_gbp, total_return,
    totalReturnPct_spec]

/-- C3 (amended): the aggregate return reported over the valued rows is
`(totalValue − totalCost) / totalCost × 100` when `totalCost > 0`, and
is reported as the number 0 (not as an absent value) when `totalCost` is
not positive; the totals are the sums over the produced rows. -/
theorem total_return_formula (qenv : String → FetchInfo)
    (fxenv : String → FxResult) (hs : List Holding) :
    total_return (analyze qenv fxenv hs).total_value_gbp
        (analyze qenv fxenv hs).total_cost_gbp =
      if (analyze qenv fxenv hs).total_cost_gbp > 0 then
        (((analyze qenv fxenv hs).rows.map HoldingResult.valueGBP).sum -
            ((analyze qenv fxenv hs).rows.map HoldingResult.costGBP).sum) /
          ((analyze qenv fxenv hs).rows.map HoldingResult.costGBP).sum * 100
      else 0 := by
  rw [total_return, (analyze_totals qenv fxenv hs).1,
    (analyze_totals qenv fxenv hs).2]

/-- C4: a holding whose fetched quote has no current price is skipped:
inserted anywhere in the batch it produces no row, contributes nothing
to either total, and surfaces exactly one missing-quote notice in
position; the rest of the batch is unaffected. -/
theorem missing_price_skipped (qenv : String → FetchInfo)
    (fxenv : String → FxResult) (pre post : List Holding) (h : Holding)
    (cur ex : Option String) (pe : Option ℚ) (rk : Option String)
    (hq : qenv h.ticker = .ok none cur ex pe rk) :
    analyze qenv fxenv (pre ++ h :: post) =
      ⟨(analyze qenv fxenv pre).rows ++ (analyze qenv fxenv post).rows,
       (analyze qenv fxenv pre).total_value_gbp +
         (analyze qenv fxenv post).total_value_gbp,
       (analyze qenv fxenv pre).total_cost_gbp +
         (analyze qenv fxenv post).total_cost_gbp,
       (analyze qenv fxenv pre).notices ++
         .quoteUnavailable h.ticker :: (analyze qenv fxenv post).notices⟩ := by
  rw [analyze_append]
  simp [analyze, hq, processQuote]

theorem missing_price_skipped_witness :
    analyze (fun _ => .ok none none none none none) (fun _ => .close 1)
        ([] ++ ⟨"CCC", 1, 1⟩ :: []) =
      ⟨(analyze (fun _ => .ok none none none none none) (fun _ => .close 1) []).rows ++
         (analyze (fun _ => .ok none none none none none) (fun _ => .close 1) []).rows,
       (analyze (fun _ => .ok none none none none none) (fun _ => .close 1) []).total_value_gbp +
         (analyze (fun _ => .ok none none none none none) (fun _ => .close 1) []).total_value_gbp,
       (analyze (fun _ => .ok none none none none none) (fun _ => .close 1) []).total_cost_gbp +
         (analyze (fun _ => .ok none none none none none) (fun _ => .close 1) []).total_cost_gbp,
       (analyze (fun _ => .ok none none none none none) (fun _ => .close 1) []).notices ++
         .quoteUnavailable (Holding.mk "CCC" 1 1).ticker ::
           (analyze (fun _ => .ok none none none none none) (fun _ => .close 1) []).notices⟩ :=
  missing_price_skipped (fun _ => .ok none none none none none) (fun _ => .close 1)
    [] [] ⟨"CCC", 1, 1⟩ none none none none rfl

/-- C5: the currency converter returns exactly 1.0 with zero external
fetches whenever source and target currency coincide (the converter's
target is always the GBP base, so the equal pair is GBP/GBP). -/
theorem rate_equal_currencies (fxenv : String → FxResult) (c : String)
    (h : c = "GBP") : get_fx_rate_to_gbp fxenv c = (1, []) := by
  subst h
  simp [get_fx_rate_to_gbp]

theorem rate_equal_currencies_witness :
    get_fx_rate_to_gbp (fun _ => .close 5) "GBP" = (1, []) :=
  rate_equal_currencies (fun _ => .close 5) "GBP" rfl

/-- C6: when the FX lookup for a non-GBP currency returns no data or
raises, the converter returns the parity rate 1.0 instead of propagating
the failure, and the resulting row's GBP price equals its unconverted
native price; the valuation still produces the row. -/
theorem fx_failure_parity (fxenv : String → FxResult) (c : String)
    (p : ℚ) (ex : Option String) (pe : Option ℚ) (rk : Option String)
    (t : String) (q bp : ℚ) (hc : c ≠ "GBP")
    (hf : fxenv (c ++ "GBP=X") = .err ∨ fxenv (c ++ "GBP=X") = .empty) :
    get_fx_rate_to_gbp fxenv c = (1, [c ++ "GBP=X"]) ∧
    outcomePriceGBP (processQuote fxenv (.ok (some p) (some c) ex pe rk) t q bp) =
      outcomePriceNative (processQuote fxenv (.ok (some p) (some c) ex pe rk) t q bp) := by
  have hrate : get_fx_rate_to_gbp fxenv c = (1, [c ++ "GBP=X"]) := by
    rcases hf with hf | hf <;> simp [get_fx_rate_to_gbp, hc, hf]
  refine ⟨hrate, ?_⟩
  simp [processQuote, outcomePriceGBP, outcomePriceNative, hrate]

theorem fx_failure_parity_witness :
    get_fx_rate_to_gbp (fun _ => .empty) "USD" = (1, ["USD" ++ "GBP=X"]) ∧
    outcomePriceGBP (processQuote (fun _ => .empty)
        (.ok (some 150) (some "USD") (some "NMS") none none) "AAPL" 10 100) =
      outcomePriceNative (processQuote (fun _ => .empty)
        (.ok (some 150) (some "USD") (some "NMS") none none) "AAPL" 10 100) :=
  fx_failure_parity (fun _ => .empty) "USD" 150 (some "NMS") none none
    "AAPL" 10 100 (by simp) (Or.inr rfl)

/-- C7: a holding with non-positive buy price whose quote resolves still
yields a full row with all other fields computed as usual, and its
per-holding return is reported as 0 — the division guard, not a division
fault. -/
theorem nonpositive_buy_price_return_zero (fxenv : String → FxResult)
    (price : ℚ) (cur ex : Option String) (pe : Option ℚ) (rk : Option String)
    (t : String) (q bp : ℚ) (hbp : bp ≤ 0) :
    processQuote fxenv (.ok (some price) cur ex pe rk) t q bp =
      .row ⟨t, q, bp,
        (if ex.getD "" = "LSE" then price / 100 else price),
        (if ex.getD "" = "LSE" then price / 100 else price) *
          (get_fx_rate_to_gbp fxenv (cur.getD "GBP")).1,
        cur.getD "GBP",
        (if ex.getD "" = "LSE" then price / 100 else price) *
          (get_fx_rate_to_gbp fxenv (cur.getD "GBP")).1 * q,
        bp * q, 0, pe, rating_map rk⟩ := by
  have hng : ¬ bp > 0 := not_lt.mpr hbp
  simp [processQuote, hng]

theorem nonpositive_buy_price_return_zero_witness :
    processQuote (fun _ => .close 1) (.ok (some 7) none none none none)
        "BBB" 4 0 =
      .row ⟨"BBB", 4, 0,
        (if (none : Option String).getD "" = "LSE" then (7 : ℚ) / 100 else 7),
        (if (none : Option String).getD "" = "LSE" then (7 : ℚ) / 100 else 7) *
          (get_fx_rate_to_gbp (fun _ => .close 1) ((none : Option String).getD "GBP")).1,
        (none : Option String).getD "GBP",
        (if (none : Option String).getD "" = "LSE" then (7 : ℚ) / 100 else 7) *
          (get_fx_rate_to_gbp (fun _ => .close 1) ((none : Option String).getD "GBP")).1 * 4,
        0 * 4, 0, none, rating_map none⟩ :=
  nonpositive_buy_price_return_zero (fun _ => .close 1) 7 none none none none
    "BBB" 4 0 le_rfl

/-- C8 counterexample: shares input "-5" is not parseable as a positive
decimal, yet the batch is not rejected: the quote for AAPL is fetched and
the holding is valued with quantity −5. -/
theorem negative_shares_not_rejected :
    runBatch pyFloatLit (fun _ => .ok (some 5) none none none none)
        (fun _ => .close 1) "AAPL" "-5" "10" =
      ⟨["AAPL"],
       .analyzed ⟨[⟨"AAPL", -5, 10, 5, 5, "GBP", -25, -50, -50, none, "N/A"⟩],
         -25, -50, []⟩⟩ := by
  norm_num +decide [runBatch, parseList, parseFields, splitComma,
    splitCommaAux, pyStrip, pyUpper, pyFloatLit, digitsVal, tickersOf,
    analyze, processQuote, get_fx_rate_to_gbp, rating_map, digitVal]

/-- C8 (amended): a batch whose shares or buy prices are not parseable
as decimals, or whose column counts differ, is rejected as a whole
before any quote fetch occurs (the fetch trace is empty) and no holding
is valued, for every float-parse collaborator and every market-data
environment. -/
theorem batch_validation_fail_fast (pf : String → Option ℚ)
    (qenv : String → FetchInfo) (fxenv : String → FxResult)
    (ti si bi : String) (hti : ti ≠ "") :
    (parseList pf si = none →
      runBatch pf qenv fxenv ti si bi = ⟨[], .sharesParseError⟩) ∧
    (∀ sh, parseList pf si = some sh → parseList pf bi = none →
      runBatch pf qenv fxenv ti si bi = ⟨[], .buyPricesParseError⟩) ∧
    (∀ sh bp, parseList pf si = some sh → parseList pf bi = some bp →
      (sh.length ≠ (tickersOf ti).length ∨
        bp.length ≠ (tickersOf ti).length) →
      runBatch pf qenv fxenv ti si bi = ⟨[], .lengthMismatch⟩) := by
  refine ⟨fun hs => ?_, fun sh hs hb => ?_, fun sh bp hs hb hlen => ?_⟩ <;>
    simp [runBatch, hti, hs]
  · simp [hb]
  · simp [hb, hlen]

theorem batch_validation_fail_fast_witness :
    runBatch pyFloatLit (fun _ => .ok (some 5) none none none none)
        (fun _ => .close 1) "AAPL" "abc" "10" = ⟨[], .sharesParseError⟩ :=
  (batch_validation_fail_fast pyFloatLit
      (fun _ => .ok (some 5) none none none none) (fun _ => .close 1)
      "AAPL" "abc" "10" (by simp)).1 rfl

/-- C10: ticker symbols are whitespace-stripped and upper-cased before
any quote is requested, so two nonempty ticker inputs with the same
normalized symbol list give identical batch outcomes — same fetches,
same rows, same totals — for identical market data and identical shares
and buy-price inputs. -/
theorem ticker_case_insensitive (pf : String → Option ℚ)
    (qenv : String → FetchInfo) (fxenv : String → FxResult)
    (t1 t2 s b : String) (h1 : t1 ≠ "") (h2 : t2 ≠ "")
    (heq : tickersOf t1 = tickersOf t2) :
    runBatch pf qenv fxenv t1 s b = runBatch pf qenv fxenv t2 s b := by
  simp only [runBatch, if_neg h1, if_neg h2, heq]

theorem ticker_case_insensitive_witness :
    runBatch pyFloatLit (fun _ => .ok (some 5) none none none none)
        (fun _ => .close 1) " aapl , msft" "1,2" "3,4" =
      runBatch pyFloatLit (fun _ => .ok (some 5) none none none none)
        (fun _ => .close 1) "AAPL,MSFT" "1,2" "3,4" :=
  ticker_case_insensitive pyFloatLit (fun _ => .ok (some 5) none none none none)
    (fun _ => .close 1) " aapl , msft" "AAPL,MSFT" "1,2" "3,4"
    (by simp) (by simp) rfl

/-- C9: in the historical path, a holding's whole close series receives
the same minor-unit and currency normalization as its latest quote
(`priceToGBP`, applied pointwise, then multiplied by `shares`), and the
combined total at every joined date is the pointwise sum, after forward
filling, of each column's most recent close at or before that date — so
a holding's date gaps never drop it out of the portfolio-value series. -/
theorem history_same_normalization_and_ffill_sum
    (histEnv : String → List (Nat × ℚ)) (qenv : String → FetchInfo)
    (fxenv : String → FxResult) (t : String) (qty bp p0 : ℚ)
    (rest : List (String × ℚ)) (pr : Option ℚ) (cur ex : Option String)
    (pe : Option ℚ) (rk : Option String) (cols : List (List (Nat × ℚ)))
    (hq : qenv t = .ok pr cur ex pe rk) (hne : histEnv t ≠ [])
    (hs : ∀ c ∈ cols, DateSorted c) :
    historyColumns histEnv qenv fxenv ((t, qty) :: rest) =
      (historyColumns histEnv qenv fxenv rest).map
        (fun cs => ((histEnv t).map
          (fun p => (p.1,
            priceToGBP fxenv (cur.getD "GBP") (ex.getD "") p.2 * qty))) :: cs) ∧
    outcomePriceGBP (processQuote fxenv (.ok (some p0) cur ex pe rk) t qty bp) =
      some (priceToGBP fxenv (cur.getD "GBP") (ex.getD "") p0) ∧
    totalSeries cols =
      (allDates cols).map
        (fun d => (d, (cols.map (fun c => (lastLE c d).getD 0)).sum)) := by
  refine ⟨?_, ?_, totalSeries_eq_lastLE cols hs⟩
  · simp only [historyColumns, hq]
    rw [if_neg (by simpa [List.isEmpty_iff] using hne)]
    refine congrArg
      (fun f => Option.map f (historyColumns histEnv qenv fxenv rest)) ?_
    funext cs
    refine congrArg (fun l => l :: cs) ?_
    by_cases hex : ex.getD "" = "LSE" <;>
      simp only [lseAdjust, hex, if_pos, if_neg, if_true, if_false,
        List.map_map] <;>
      refine List.map_congr_left (fun p hp => ?_) <;>
      simp [Function.comp, priceToGBP, hex, mul_assoc]
  · simp [processQuote, outcomePriceGBP, priceToGBP]

theorem history_same_normalization_and_ffill_sum_witness :
    historyColumns (fun _ => [(1, (10 : ℚ)), (3, 12)])
        (fun _ => .ok (some 5) (some "GBP") none none none)
        (fun _ => .close 1) (("AAA", 2) :: []) =
      (historyColumns (fun _ => [(1, (10 : ℚ)), (3, 12)])
          (fun _ => .ok (some 5) (some "GBP") none none none)
          (fun _ => .close 1) []).map
        (fun cs => (([(1, (10 : ℚ)), (3, 12)]).map
          (fun p => (p.1,
            priceToGBP (fun _ => .close 1) ((some "GBP").getD "GBP")
              ((none : Option String).getD "") p.2 * 2))) :: cs) ∧
    outcomePriceGBP (processQuote (fun _ => .close 1)
        (.ok (some 5) (some "GBP") none none none) "AAA" 2 1) =
      some (priceToGBP (fun _ => .close 1) ((some "GBP").getD "GBP")
        ((none : Option String).getD "") 5) ∧
    totalSeries [[(1, (10 : ℚ)), (3, 12)], [(1, 5), (2, 6), (3, 7)]] =
      (allDates [[(1, (10 : ℚ)), (3, 12)], [(1, 5), (2, 6), (3, 7)]]).map
        (fun d => (d,
          (([[(1, (10 : ℚ)), (3, 12)], [(1, 5), (2, 6), (3, 7)]]).map
            (fun c => (lastLE c d).getD 0)).sum)) :=
  history_same_normalization_and_ffill_sum
    (fun _ => [(1, (10 : ℚ)), (3, 12)])
    (fun _ => .ok (some 5) (some "GBP") none none none)
    (fun _ => .close 1) "AAA" 2 1 5 [] (some 5) (some "GBP") none none none
    [[(1, (10 : ℚ)), (3, 12)], [(1, 5), (2, 6), (3, 7)]]
    rfl (by simp) (by decide)

end PortfolioTracker
